import Mathlib

/-!
Verification of the nanoflann point-cloud adaptor example and of the KD-tree
index it drives, against the repository's natural-language specification.

The adaptor layer is translated directly from
`src/examples/pointcloud_adaptor_example.cpp` (`PointCloudAdaptor`):
scalar coordinates are embedded as `Int`, unchecked container accesses
(`pts[idx]`, `ix[k]`) become `Option`-valued lookups so that the out-of-range
branch has no defined value, and the `kdtree_get_limits` loop becomes a
structural recursion over the remaining iteration count.

The KD-tree engine itself (`nanoflann.hpp`: index build, k-NN search,
radius search, result set) and the example's point container (`utils.h`)
are not part of the excerpted sources; where a claim depends on them they
are modelled from the specification, with a doc comment naming what is
modelled.
-/

namespace Nanoflann

/-- Modelled from the spec: the external point type from the example's point
container (`utils.h`, not among the excerpted sources).  A `Point` is an
opaque tuple of D = 3 scalar coordinates (spec section 3); scalars are embedded
as `Int`. -/
structure Point where
  x : Int
  y : Int
  z : Int
deriving DecidableEq

instance : Inhabited Point := ⟨⟨0, 0, 0⟩⟩

/-- Modelled from the spec: `coordinate(pointIndex, dim)` of the external
point accessor — "returns the dim-th coordinate" (spec section 4.1); the
component accessor called by the adaptor's `PointAdaptor.get_component`. -/
def Point.get_component (p : Point) (dim : Nat) : Int :=
  if dim = 0 then p.x else if dim = 1 then p.y else p.z

/-- Modelled from the spec: `signedDistance(pointIndex, dim, value)` under the
default Euclidean-L2 metric, defined as `coordinate - value`
(spec section 4.1); the primitive called by the adaptor's
`PointAdaptor.get_signed_distance`. -/
def Point.get_signed_distance (p : Point) (dim : Nat) (val : Int) : Int :=
  p.get_component dim - val

/-- Modelled from the spec: `distanceBetween(a, b)` under the default
Euclidean-L2 metric — "sum of squared per-dimension differences"
(spec section 4.1); squared distances are used throughout, never a root. -/
def Point.get_distance_to (p : Point) (q : Point) : Int :=
  (p.x - q.x) * (p.x - q.x) + (p.y - q.y) * (p.y - q.y) + (p.z - q.z) * (p.z - q.z)

/-- The external point collection: an ordered sequence of points
(`PointCloud<T>::pts` in the example; spec section 3 `PointCollection`). -/
structure PointCloud where
  pts : List Point
deriving DecidableEq

/-- Total coordinate read used by the modelled index internals, where the
build/search contract guarantees in-range indices (spec section 4.1:
out-of-range access is a caller contract). -/
def PointCloud.pointAt (pc : PointCloud) (i : Nat) : Point :=
  pc.pts.getD i default

/-- `PointCloudAdaptor<Derived>` from the example: its only state is `obj`,
a reference to the data-set origin. -/
structure PointCloudAdaptor where
  obj : PointCloud
deriving DecidableEq

/-- `PointCloudAdaptor::PointAdaptor`: a wrapper holding a reference to one
point of the collection. -/
structure PointAdaptor where
  point : Point
deriving DecidableEq

/-- `PointAdaptor::get_component`: delegates to the wrapped point. -/
def PointAdaptor.get_component (pa : PointAdaptor) (dim : Nat) : Int :=
  pa.point.get_component dim

/-- `PointAdaptor::get_signed_distance`: delegates to the wrapped point. -/
def PointAdaptor.get_signed_distance (pa : PointAdaptor) (dim : Nat) (val : Int) : Int :=
  pa.point.get_signed_distance dim val

/-- `PointAdaptor::get_distance_to`: delegates to the wrapped point. -/
def PointAdaptor.get_distance_to (pa : PointAdaptor) (pt : PointAdaptor) : Int :=
  pa.point.get_distance_to pt.point

/-- `PointCloudAdaptor::derived()`: the CRTP helper returning `obj`. -/
def PointCloudAdaptor.derived (a : PointCloudAdaptor) : PointCloud :=
  a.obj

/-- `PointCloudAdaptor::kdtree_get_point_count()`:
`return derived().pts.size();`. -/
def PointCloudAdaptor.kdtree_get_point_count (a : PointCloudAdaptor) : Nat :=
  a.derived.pts.length

/-- `PointCloudAdaptor::kdtree_get_pt(idx)`:
`return PointAdaptor{derived().pts[idx]};`.  The `pts[idx]` access is
unchecked in the source, so the embedding is `Option`-valued: an
out-of-range index yields no value. -/
def PointCloudAdaptor.kdtree_get_pt (a : PointCloudAdaptor) (idx : Nat) :
    Option PointAdaptor :=
  (a.derived.pts[idx]?).map PointAdaptor.mk

/-- One iteration body of the `kdtree_get_limits` loop:
`if (value < limit_min) limit_min = value; if (value > limit_max) limit_max = value;`
acting on the pair `(limit_min, limit_max)`. -/
def limitsStep (mm : Int × Int) (value : Int) : Int × Int :=
  (if value < mm.1 then value else mm.1, if mm.2 < value then value else mm.2)

/-- The loop `for (k = 1; k < count; ++k)` of `kdtree_get_limits`, phrased as
structural recursion on the number `n` of remaining iterations with `k` the
current loop counter.  Each iteration reads `ix[k]` and then the point at
that index; both accesses are unchecked in the source, hence `Option`. -/
def getLimitsLoop (a : PointCloudAdaptor) (ix : List Nat) (dim : Nat) :
    Nat → Nat → Int × Int → Option (Int × Int)
  | 0, _, mm => some mm
  | n + 1, k, mm => do
    let i ← ix[k]?
    let pa ← a.kdtree_get_pt i
    let value := pa.get_component dim
    getLimitsLoop a ix dim n (k + 1) (limitsStep mm value)

/-- `PointCloudAdaptor::kdtree_get_limits(ix, count, dim, limit_min, limit_max)`:
initializes both limits to `kdtree_get_pt(ix[0]).get_component(dim)` — reading
`ix[0]` before any inspection of `count` — and then runs the loop for
`k = 1, …, count - 1`.  The two reference out-parameters become the returned
pair. -/
def PointCloudAdaptor.kdtree_get_limits (a : PointCloudAdaptor) (ix : List Nat)
    (count : Nat) (dim : Nat) : Option (Int × Int) := do
  let i0 ← ix[0]?
  let pa0 ← a.kdtree_get_pt i0
  let v0 := pa0.get_component dim
  getLimitsLoop a ix dim (count - 1) 1 (v0, v0)

/-- The list of dim-th coordinates of the points addressed by the first
`count` entries of `ix` — the values `kdtree_get_limits` scans (using the
total read `pointAt`, adequate on in-range indices). -/
def coordsAt (a : PointCloudAdaptor) (ix : List Nat) (count : Nat) (dim : Nat) :
    List Int :=
  (ix.take count).map (fun i => (a.derived.pointAt i).get_component dim)

/-! ### The KD-tree index, modelled from the specification

`nanoflann.hpp` is not among the excerpted sources; only the adaptor that
feeds it is.  The index build (spec section 4.2), the branch-and-bound
searches (section 4.3) and the bounded result collector (section 4.4) below
are therefore modelled from the specification's words. -/

/-- The dim-th coordinate of point `i` of the cloud, as consumed by the
index (spec section 4.1 `coordinate`; in-range by the build contract). -/
def coordOf (pc : PointCloud) (dim : Nat) (i : Nat) : Int :=
  (pc.pointAt i).get_component dim

/-- Squared distance from a query point to the point with index `i`
(spec section 4.1 `distanceBetween`, L2). -/
def distTo (pc : PointCloud) (q : Point) (i : Nat) : Int :=
  q.get_distance_to (pc.pointAt i)

/-- Minimum of a nonempty list of scalars (0 on the empty list, which the
build never passes); the `min` half of `boundsOver` (spec section 4.1). -/
def minList : List Int → Int
  | [] => 0
  | v :: vs => vs.foldl min v

/-- Maximum of a nonempty list of scalars; the `max` half of `boundsOver`. -/
def maxList : List Int → Int
  | [] => 0
  | v :: vs => vs.foldl max v

/-- The dim-th coordinates of a set of point indices, as scanned by
`boundsOver` during the build. -/
def coordsOf (pc : PointCloud) (dim : Nat) (idxs : List Nat) : List Int :=
  idxs.map (coordOf pc dim)

/-- Coordinate spread of a point subset along one dimension
(`boundsOver` max minus min, spec section 4.2 step 2). -/
def spreadOf (pc : PointCloud) (dim : Nat) (idxs : List Nat) : Int :=
  maxList (coordsOf pc dim idxs) - minList (coordsOf pc dim idxs)

/-- Modelled from the spec: the split dimension is "the one with the greatest
coordinate spread among the points in range" (section 4.2); ties broken
towards the lower dimension, D = 3. -/
def bestDim (pc : PointCloud) (idxs : List Nat) : Nat :=
  if spreadOf pc 1 idxs ≤ spreadOf pc 0 idxs ∧ spreadOf pc 2 idxs ≤ spreadOf pc 0 idxs
  then 0
  else if spreadOf pc 2 idxs ≤ spreadOf pc 1 idxs then 1 else 2

/-- Spec section 3 `TreeNode`: a leaf holding a set of point indices, or an
internal node with a split dimension, a split value and two children (left:
coordinate ≤ split, right: coordinate > split). -/
inductive TreeNode where
  | leaf (idxs : List Nat)
  | node (dim : Nat) (split : Int) (left right : TreeNode)
deriving DecidableEq

/-- Modelled from the spec (section 4.2): the recursive build.  A range of
at most `leafSize` indices becomes a leaf; a degenerate range (zero spread
along the maximal-spread dimension, i.e. identical coordinates along every
candidate dimension) is forced to a leaf; otherwise the range is split at the
midpoint of the extrema of the maximal-spread dimension and the build recurses
on both halves.  The structural fuel bounds the recursion depth; it is spent
one unit per level and `buildTree` supplies `idxs.length` of it, which the
strictly shrinking ranges of the real algorithm never exhaust. -/
def buildTreeFuel (pc : PointCloud) (leafSize : Nat) :
    Nat → List Nat → TreeNode
  | 0, idxs => .leaf idxs
  | fuel + 1, idxs =>
    if idxs.length ≤ leafSize then .leaf idxs
    else
      let dim := bestDim pc idxs
      let mn := minList (coordsOf pc dim idxs)
      let mx := maxList (coordsOf pc dim idxs)
      if mx - mn = 0 then .leaf idxs
      else
        let split := (mn + mx) / 2
        let lft := idxs.filter (fun i => decide (coordOf pc dim i ≤ split))
        let rgt := idxs.filter (fun i => !(decide (coordOf pc dim i ≤ split)))
        .node dim split (buildTreeFuel pc leafSize fuel lft)
          (buildTreeFuel pc leafSize fuel rgt)

/-- Modelled from the spec: build the index over the identity permutation
`[0 .. N)` of all point indices (section 4.2 step 1). -/
def buildTree (pc : PointCloud) (leafSize : Nat) : TreeNode :=
  buildTreeFuel pc leafSize pc.pts.length (List.range pc.pts.length)

/-- All point indices stored in the leaves of a tree, left to right. -/
def leafIdxs : TreeNode → List Nat
  | .leaf idxs => idxs
  | .node _ _ l r => leafIdxs l ++ leafIdxs r

/-- The geometric invariant the build establishes: at every internal node,
every point of the left subtree has coordinate ≤ split along the node's
dimension and every point of the right subtree has coordinate > split
(spec section 3 `TreeNode`). -/
inductive TreeValid (pc : PointCloud) : TreeNode → Prop
  | leaf (idxs : List Nat) : TreeValid pc (.leaf idxs)
  | node (dim : Nat) (split : Int) (l r : TreeNode)
      (hl : ∀ i ∈ leafIdxs l, coordOf pc dim i ≤ split)
      (hr : ∀ i ∈ leafIdxs r, split < coordOf pc dim i)
      (vl : TreeValid pc l) (vr : TreeValid pc r) :
      TreeValid pc (.node dim split l r)

/-- Modelled from the spec (section 4.4): the bounded result collector — an
ascending-by-distance sequence of (point index, squared distance) pairs with
a fixed capacity. -/
structure KNNResultSet where
  capacity : Nat
  items : List (Nat × Int)
deriving DecidableEq

/-- Ordered insertion of a candidate pair into the ascending sequence:
the insertion position is after every held pair of distance ≤ the new
distance (spec section 4.4 `insert`). -/
def insertPair (p : Nat × Int) : List (Nat × Int) → List (Nat × Int)
  | [] => [p]
  | q :: rest => if q.2 ≤ p.2 then q :: insertPair p rest else p :: q :: rest

/-- `worstDistance()`: the maximum held distance — the last of the ascending
sequence.  The spec gives +infinity when the set is not yet full; the
sentinel 0 below is only ever consulted when the set is full, and a full set
is empty only at capacity 0), where the collector accepts nothing anyway. -/
def KNNResultSet.worstDist (rs : KNNResultSet) : Int :=
  ((rs.items.getLast?).map Prod.snd).getD 0

/-- Modelled from the spec (section 4.4 `insert`): below capacity, insert
maintaining ascending order; at capacity, admit only a strictly smaller
distance than the current maximum, evicting that maximum. -/
def KNNResultSet.addPoint (rs : KNNResultSet) (i : Nat) (d : Int) : KNNResultSet :=
  if rs.items.length < rs.capacity then
    { rs with items := insertPair (i, d) rs.items }
  else if d < rs.worstDist then
    { rs with items := (insertPair (i, d) rs.items).dropLast }
  else rs

/-- Leaf processing of the k-NN search: "compute exact distance to every
contained point and attempt insertion into the ResultSet"
(spec section 4.3). -/
def searchLeaf (pc : PointCloud) (q : Point) (idxs : List Nat)
    (rs : KNNResultSet) : KNNResultSet :=
  idxs.foldl (fun rs i => rs.addPoint i (distTo pc q i)) rs

/-- Modelled from the spec (section 4.3 k-Nearest-Neighbors): branch-and-bound
traversal.  At an internal node the signed distance `d` from the query to the
split plane picks the near child, which is searched first; the far child is
searched only when the result set is not yet full or the split-plane lower
bound `d * d` on every far-side distance is below the current worst
distance. -/
def searchTree (pc : PointCloud) (q : Point) : TreeNode → KNNResultSet → KNNResultSet
  | .leaf idxs, rs => searchLeaf pc q idxs rs
  | .node dim split l r, rs =>
    let d := q.get_component dim - split
    if d ≤ 0 then
      let rs1 := searchTree pc q l rs
      if rs1.items.length < rs1.capacity ∨ d * d < rs1.worstDist then
        searchTree pc q r rs1
      else rs1
    else
      let rs1 := searchTree pc q r rs
      if rs1.items.length < rs1.capacity ∨ d * d < rs1.worstDist then
        searchTree pc q l rs1
      else rs1

/-- Modelled from the spec (section 6): `findKNearest(queryPoint, k)` — build
the index, run the branch-and-bound search with an empty collector of
capacity k, and return the collected (index, squared distance) pairs. -/
def findKNearest (pc : PointCloud) (leafSize : Nat) (q : Point) (k : Nat) :
    List (Nat × Int) :=
  (searchTree pc q (buildTree pc leafSize) { capacity := k, items := [] }).items

/-- Leaf processing of the radius query: accumulate every contained point
whose squared distance is at most the squared radius (spec section 4.3,
section 8 radius scenario: the boundary is included). -/
def radiusLeaf (pc : PointCloud) (q : Point) (rad : Int) (idxs : List Nat)
    (acc : List (Nat × Int)) : List (Nat × Int) :=
  idxs.foldl (fun acc i =>
    let d := distTo pc q i
    if d ≤ rad then acc ++ [(i, d)] else acc) acc

/-- Modelled from the spec (section 4.3 radius query): the same traversal as
the k-NN search, with the pruning bound compared against the fixed squared
radius instead of a shrinking worst distance. -/
def radiusTree (pc : PointCloud) (q : Point) (rad : Int) :
    TreeNode → List (Nat × Int) → List (Nat × Int)
  | .leaf idxs, acc => radiusLeaf pc q rad idxs acc
  | .node dim split l r, acc =>
    let d := q.get_component dim - split
    if d ≤ 0 then
      let acc1 := radiusTree pc q rad l acc
      if d * d ≤ rad then radiusTree pc q rad r acc1 else acc1
    else
      let acc1 := radiusTree pc q rad r acc
      if d * d ≤ rad then radiusTree pc q rad l acc1 else acc1

/-- Modelled from the spec (section 6): `findInRadius(queryPoint,
radiusSquared)` — build the index and accumulate all matches. -/
def findInRadius (pc : PointCloud) (leafSize : Nat) (q : Point) (rad : Int) :
    List (Nat × Int) :=
  radiusTree pc q rad (buildTree pc leafSize) []

/-! ### Brute-force reference and collector semantics -/

/-- Ordered insertion of a scalar into an ascending list (after all elements
≤ it). -/
def insertAsc (d : Int) : List Int → List Int
  | [] => [d]
  | v :: rest => if v ≤ d then v :: insertAsc d rest else d :: v :: rest

/-- Insertion sort of a list of scalars, ascending. -/
def sortAsc : List Int → List Int :=
  List.foldr insertAsc []

/-- Modelled from the spec (section 8 Completeness): the brute-force
reference — the squared distances of all N points to the query, by an O(N)
linear scan, sorted ascending. -/
def bruteForceDists (pc : PointCloud) (q : Point) : List Int :=
  sortAsc ((List.range pc.pts.length).map (distTo pc q))

/-- The (index, squared distance) candidate pairs for a list of point
indices. -/
def toPairs (pc : PointCloud) (q : Point) (is : List Nat) : List (Nat × Int) :=
  is.map (fun i => (i, distTo pc q i))

/-- The order in which the branch-and-bound traversal reaches the leaves'
points: near subtree first, then far subtree (before any pruning). -/
def visitOrder (q : Point) : TreeNode → List Nat
  | .leaf idxs => idxs
  | .node dim split l r =>
    if q.get_component dim - split ≤ 0 then visitOrder q l ++ visitOrder q r
    else visitOrder q r ++ visitOrder q l

/-- Abstraction relation of the result collector (spec section 4.4
invariant): after feeding the candidate pairs `D` into an empty collector of
capacity `cap`, the held sequence `I` is ascending by distance, holds
`min cap |D|` pairs, and the candidates split — up to permutation — into `I`
and a remainder every element of which is at least every held distance. -/
def RSinv (cap : Nat) (D I : List (Nat × Int)) : Prop :=
  I.Sorted (fun p q => p.2 ≤ q.2) ∧
  I.length = min cap D.length ∧
  ∃ rest, D.Perm (I ++ rest) ∧ ∀ p ∈ rest, ∀ q ∈ I, q.2 ≤ p.2

/-- Sample collection used by the concrete witnesses below. -/
def samplePC : PointCloud :=
  ⟨[⟨0, 0, 0⟩, ⟨5, 1, -2⟩, ⟨3, 4, 7⟩]⟩

/-- Sample adaptor over `samplePC`. -/
def sampleAdaptor : PointCloudAdaptor :=
  ⟨samplePC⟩

/-! ## Lemmas about the `kdtree_get_limits` fold -/

lemma foldl_limitsStep_fst_le (vs : List Int) :
    ∀ mm : Int × Int, (vs.foldl limitsStep mm).1 ≤ mm.1 ∧
      ∀ v ∈ vs, (vs.foldl limitsStep mm).1 ≤ v := by
  induction vs with
  | nil => intro mm; simp
  | cons v vs ih =>
    intro mm
    simp only [List.foldl_cons, List.mem_cons]
    obtain ⟨h1, h2⟩ := ih (limitsStep mm v)
    have hstep1 : (limitsStep mm v).1 ≤ mm.1 := by
      simp only [limitsStep]; split <;> omega
    have hstepv : (limitsStep mm v).1 ≤ v := by
      simp only [limitsStep]; split <;> omega
    refine ⟨le_trans h1 hstep1, ?_⟩
    rintro w (rfl | hw)
    · exact le_trans h1 hstepv
    · exact h2 w hw

lemma foldl_limitsStep_fst_mem (vs : List Int) :
    ∀ mm : Int × Int, (vs.foldl limitsStep mm).1 = mm.1 ∨
      (vs.foldl limitsStep mm).1 ∈ vs := by
  induction vs with
  | nil => intro mm; simp
  | cons v vs ih =>
    intro mm
    simp only [List.foldl_cons, List.mem_cons]
    rcases ih (limitsStep mm v) with h | h
    · rw [h]
      simp only [limitsStep]
      split
      · exact Or.inr (Or.inl rfl)
      · exact Or.inl rfl
    · exact Or.inr (Or.inr h)

lemma foldl_limitsStep_snd_ge (vs : List Int) :
    ∀ mm : Int × Int, mm.2 ≤ (vs.foldl limitsStep mm).2 ∧
      ∀ v ∈ vs, v ≤ (vs.foldl limitsStep mm).2 := by
  induction vs with
  | nil => intro mm; simp
  | cons v vs ih =>
    intro mm
    simp only [List.foldl_cons, List.mem_cons]
    obtain ⟨h1, h2⟩ := ih (limitsStep mm v)
    have hstep2 : mm.2 ≤ (limitsStep mm v).2 := by
      simp only [limitsStep]; split <;> omega
    have hstepv : v ≤ (limitsStep mm v).2 := by
      simp only [limitsStep]; split <;> omega
    refine ⟨le_trans hstep2 h1, ?_⟩
    rintro w (rfl | hw)
    · exact le_trans hstepv h1
    · exact h2 w hw

lemma foldl_limitsStep_snd_mem (vs : List Int) :
    ∀ mm : Int × Int, (vs.foldl limitsStep mm).2 = mm.2 ∨
      (vs.foldl limitsStep mm).2 ∈ vs := by
  induction vs with
  | nil => intro mm; simp
  | cons v vs ih =>
    intro mm
    simp only [List.foldl_cons, List.mem_cons]
    rcases ih (limitsStep mm v) with h | h
    · rw [h]
      simp only [limitsStep]
      split
      · exact Or.inr (Or.inl rfl)
      · exact Or.inl rfl
    · exact Or.inr (Or.inr h)

/-- On a window of in-range accesses, the `kdtree_get_limits` loop succeeds and
computes the pure fold of `limitsStep` over the addressed coordinates. -/
lemma getLimitsLoop_eq_foldl (a : PointCloudAdaptor) (ix : List Nat) (dim : Nat) :
    ∀ (n k : Nat) (mm : Int × Int), k + n ≤ ix.length →
      (∀ i ∈ (ix.drop k).take n, i < a.kdtree_get_point_count) →
      getLimitsLoop a ix dim n k mm =
        some ((((ix.drop k).take n).map
          (fun i => (a.derived.pointAt i).get_component dim)).foldl limitsStep mm) := by
  intro n
  induction n with
  | zero => intro k mm _ _; simp [getLimitsLoop]
  | succ n ih =>
    intro k mm hlen hin
    have hk : k < ix.length := by omega
    have hdrop : ix.drop k = ix[k] :: ix.drop (k + 1) := List.drop_eq_getElem_cons hk
    have htake : (ix.drop k).take (n + 1) = ix[k] :: (ix.drop (k + 1)).take n := by
      rw [hdrop]; rfl
    have hmemk : ix[k] ∈ (ix.drop k).take (n + 1) := by
      rw [htake]; exact List.mem_cons_self _ _
    have hklt : ix[k] < a.derived.pts.length := hin _ hmemk
    have hget : a.kdtree_get_pt ix[k] = some ⟨a.derived.pts[ix[k]]⟩ := by
      simp [PointCloudAdaptor.kdtree_get_pt, List.getElem?_eq_getElem hklt]
    have hpt : a.derived.pointAt ix[k] = a.derived.pts[ix[k]] := by
      simp [PointCloud.pointAt, List.getD, List.getElem?_eq_getElem hklt]
    have hix : ix[k]? = some ix[k] := List.getElem?_eq_getElem hk
    rw [htake, List.map_cons, List.foldl_cons]
    simp only [getLimitsLoop, hix, hget, Option.bind_eq_bind, Option.some_bind]
    rw [ih (k + 1) _ (by omega)
      (fun i hi => hin i (by rw [htake]; exact List.mem_cons_of_mem _ hi))]
    rw [hpt]
    rfl

/-- Master characterization of `kdtree_get_limits` on a valid, non-empty index
window: it returns the fold of `limitsStep` over all addressed coordinates,
seeded with the first one. -/
lemma getLimits_minmax (a : PointCloudAdaptor) (ix : List Nat) (count dim : Nat)
    (hc : 1 ≤ count) (hlen : count ≤ ix.length)
    (hin : ∀ i ∈ ix.take count, i < a.kdtree_get_point_count) :
    ∃ mn mx, a.kdtree_get_limits ix count dim = some (mn, mx) ∧
      mn ∈ coordsAt a ix count dim ∧ mx ∈ coordsAt a ix count dim ∧
      ∀ v ∈ coordsAt a ix count dim, mn ≤ v ∧ v ≤ mx := by
  have h0 : 0 < ix.length := by omega
  have hdrop0 : ix.drop 0 = ix[0] :: ix.drop 1 := List.drop_eq_getElem_cons h0
  have hix : ix = ix[0] :: ix.drop 1 := by simpa using hdrop0
  have htake : ix.take count = ix[0] :: (ix.drop 1).take (count - 1) := by
    conv_lhs => rw [hix]
    obtain ⟨c, rfl⟩ : ∃ c, count = c + 1 := ⟨count - 1, by omega⟩
    simp
  have hmem0 : ix[0] ∈ ix.take count := by rw [htake]; exact List.mem_cons_self _ _
  have h0lt : ix[0] < a.derived.pts.length := hin _ hmem0
  have hget : a.kdtree_get_pt ix[0] = some ⟨a.derived.pts[ix[0]]⟩ := by
    simp [PointCloudAdaptor.kdtree_get_pt, List.getElem?_eq_getElem h0lt]
  have hpt : a.derived.pointAt ix[0] = a.derived.pts[ix[0]] := by
    simp [PointCloud.pointAt, List.getD, List.getElem?_eq_getElem h0lt]
  set f : Nat → Int := fun i => (a.derived.pointAt i).get_component dim with hf
  have hloop := getLimitsLoop_eq_foldl a ix dim (count - 1) 1
    (f ix[0], f ix[0]) (by omega)
    (fun i hi => hin i (by rw [htake]; exact List.mem_cons_of_mem _ hi))
  have hlim : a.kdtree_get_limits ix count dim =
      some ((((ix.drop 1).take (count - 1)).map f).foldl limitsStep
        (f ix[0], f ix[0])) := by
    simp only [PointCloudAdaptor.kdtree_get_limits, List.getElem?_eq_getElem h0,
      hget, Option.bind_eq_bind, Option.some_bind]
    rw [← hloop]
    congr 1
    simp [PointAdaptor.get_component, hf, hpt]
  set vs : List Int := ((ix.drop 1).take (count - 1)).map f with hvs
  have hcoords : coordsAt a ix count dim = f ix[0] :: vs := by
    simp only [coordsAt, htake, List.map_cons, hvs, hf]
  set r := vs.foldl limitsStep (f ix[0], f ix[0]) with hr
  refine ⟨r.1, r.2, by rw [hlim], ?_, ?_, ?_⟩
  · rw [hcoords]
    rcases foldl_limitsStep_fst_mem vs (f ix[0], f ix[0]) with h | h
    · rw [← hr] at h; rw [h]; exact List.mem_cons_self _ _
    · rw [← hr] at h; exact List.mem_cons_of_mem _ h
  · rw [hcoords]
    rcases foldl_limitsStep_snd_mem vs (f ix[0], f ix[0]) with h | h
    · rw [← hr] at h; rw [h]; exact List.mem_cons_self _ _
    · rw [← hr] at h; exact List.mem_cons_of_mem _ h
  · rw [hcoords]
    obtain ⟨hle1, hle2⟩ := foldl_limitsStep_fst_le vs (f ix[0], f ix[0])
    obtain ⟨hge1, hge2⟩ := foldl_limitsStep_snd_ge vs (f ix[0], f ix[0])
    intro v hv
    rcases List.mem_cons.mp hv with rfl | hv'
    · exact ⟨hle1, hge1⟩
    · exact ⟨hle2 v hv', hge2 v hv'⟩

/-! ## Adaptor claims -/

/-- C1: for every non-empty valid index window `ix[0..count)` and every
dimension `dim`, `kdtree_get_limits` returns the pair of the minimum and the
maximum of the dim-th coordinates of the points at those indices: both
returned values are coordinates in the scanned list, the first is a lower
bound and the second an upper bound of it. -/
theorem kdtree_get_limits_extrema (a : PointCloudAdaptor) (ix : List Nat)
    (count dim : Nat) (hc : 1 ≤ count) (hlen : count ≤ ix.length)
    (hin : ∀ i ∈ ix.take count, i < a.kdtree_get_point_count) :
    ∃ mn mx, a.kdtree_get_limits ix count dim = some (mn, mx) ∧
      mn ∈ coordsAt a ix count dim ∧ mx ∈ coordsAt a ix count dim ∧
      ∀ v ∈ coordsAt a ix count dim, mn ≤ v ∧ v ≤ mx :=
  getLimits_minmax a ix count dim hc hlen hin

/-- Witness for C1 at a concrete adaptor, index window and dimension. -/
theorem kdtree_get_limits_extrema_witness :
    ∃ mn mx, sampleAdaptor.kdtree_get_limits [2, 0, 1] 3 1 = some (mn, mx) ∧
      mn ∈ coordsAt sampleAdaptor [2, 0, 1] 3 1 ∧
      mx ∈ coordsAt sampleAdaptor [2, 0, 1] 3 1 ∧
      ∀ v ∈ coordsAt sampleAdaptor [2, 0, 1] 3 1, mn ≤ v ∧ v ≤ mx :=
  kdtree_get_limits_extrema sampleAdaptor [2, 0, 1] 3 1 (by decide) (by decide)
    (by decide)

/-- C3: `kdtree_get_point_count` always returns the size of the wrapped
collection's point sequence. -/
theorem kdtree_get_point_count_eq (a : PointCloudAdaptor) :
    a.kdtree_get_point_count = a.obj.pts.length :=
  rfl

/-- C4: under the default L2 metric, `get_signed_distance i dim value` of a
fetched point equals its `dim`-th coordinate minus `value` (whenever the
fetch is defined, both sides agree). -/
theorem kdtree_signed_distance_eq (a : PointCloudAdaptor) (i dim : Nat)
    (val : Int) :
    (a.kdtree_get_pt i).map (fun pa => pa.get_signed_distance dim val) =
      (a.kdtree_get_pt i).map (fun pa => pa.get_component dim - val) := by
  cases h : a.kdtree_get_pt i with
  | none => rfl
  | some pa =>
    simp [PointAdaptor.get_signed_distance, Point.get_signed_distance,
      PointAdaptor.get_component]

/-- C5: the adaptor holds no state beyond the reference to the collection —
two adaptors over the same collection are equal — and every adaptor
operation is a pure function of that collection: `kdtree_get_point_count`,
`kdtree_get_pt` and `kdtree_get_limits` agree on any arguments, leaving
adaptor and collection untouched (the operations are const-qualified in the
source and embedded as pure functions). -/
theorem adaptor_stateless (a b : PointCloudAdaptor) (i : Nat) (ix : List Nat)
    (count dim : Nat) (h : a.obj = b.obj) :
    a = b ∧
    a.kdtree_get_point_count = b.kdtree_get_point_count ∧
    a.kdtree_get_pt i = b.kdtree_get_pt i ∧
    a.kdtree_get_limits ix count dim = b.kdtree_get_limits ix count dim := by
  cases a
  cases b
  cases h
  exact ⟨rfl, rfl, rfl, rfl⟩

/-- Witness for C5 at two concrete adaptors over the same collection. -/
theorem adaptor_stateless_witness :
    sampleAdaptor = PointCloudAdaptor.mk samplePC ∧
    sampleAdaptor.kdtree_get_point_count =
      (PointCloudAdaptor.mk samplePC).kdtree_get_point_count ∧
    sampleAdaptor.kdtree_get_pt 1 = (PointCloudAdaptor.mk samplePC).kdtree_get_pt 1 ∧
    sampleAdaptor.kdtree_get_limits [0, 1] 2 0 =
      (PointCloudAdaptor.mk samplePC).kdtree_get_limits [0, 1] 2 0 :=
  adaptor_stateless sampleAdaptor (PointCloudAdaptor.mk samplePC) 1 [0, 1] 2 0 rfl

/-- C6: neither `kdtree_get_pt` nor `kdtree_get_limits` bounds-checks the
point index: for an index at or beyond `kdtree_get_point_count`, the
unguarded collection access has no defined value — `kdtree_get_pt` yields
none, and `kdtree_get_limits` on a window whose first entry is such an index
yields none. -/
theorem adaptor_no_bounds_check (a : PointCloudAdaptor) (idx : Nat)
    (ix : List Nat) (count dim : Nat) (hidx : a.kdtree_get_point_count ≤ idx)
    (hix : ix[0]? = some idx) :
    a.kdtree_get_pt idx = none ∧ a.kdtree_get_limits ix count dim = none := by
  have hnone : a.kdtree_get_pt idx = none := by
    simp [PointCloudAdaptor.kdtree_get_pt, List.getElem?_eq_none hidx]
  refine ⟨hnone, ?_⟩
  simp [PointCloudAdaptor.kdtree_get_limits, hix, hnone]

/-- Witness for C6 at a concrete out-of-range index. -/
theorem adaptor_no_bounds_check_witness :
    sampleAdaptor.kdtree_get_pt 9 = none ∧
    sampleAdaptor.kdtree_get_limits [9] 1 0 = none :=
  adaptor_no_bounds_check sampleAdaptor 9 [9] 1 0 (by decide) (by decide)

/-- C8: `kdtree_get_limits` reads `ix[0]` before consulting `count`, so on an
empty index sequence — in particular with `count = 0` — the first access
fails and there is no defined result, whatever `count` is. -/
theorem kdtree_get_limits_empty (a : PointCloudAdaptor) (count dim : Nat) :
    a.kdtree_get_limits [] count dim = none :=
  rfl

/-- C9: on every non-empty valid index window, `kdtree_get_limits` returns a
defined pair with `limit_min ≤ limit_max`. -/
theorem kdtree_get_limits_min_le_max (a : PointCloudAdaptor) (ix : List Nat)
    (count dim : Nat) (hc : 1 ≤ count) (hlen : count ≤ ix.length)
    (hin : ∀ i ∈ ix.take count, i < a.kdtree_get_point_count) :
    ∃ mn mx, a.kdtree_get_limits ix count dim = some (mn, mx) ∧ mn ≤ mx := by
  obtain ⟨mn, mx, heq, hmn, -, hbound⟩ := getLimits_minmax a ix count dim hc hlen hin
  exact ⟨mn, mx, heq, (hbound mn hmn).2⟩

/-- Witness for C9 at a concrete adaptor and index window. -/
theorem kdtree_get_limits_min_le_max_witness :
    ∃ mn mx, sampleAdaptor.kdtree_get_limits [1, 2] 2 2 = some (mn, mx) ∧ mn ≤ mx :=
  kdtree_get_limits_min_le_max sampleAdaptor [1, 2] 2 2 (by decide) (by decide)
    (by decide)

/-- C10: the result of `kdtree_get_limits` depends only on the multiset of
indices in the scanned window: permuting the first `count` entries of `ix`
leaves the returned pair unchanged. -/
theorem kdtree_get_limits_perm_invariant (a : PointCloudAdaptor)
    (ix ix' : List Nat) (count dim : Nat) (hc : 1 ≤ count)
    (hlen : count ≤ ix.length)
    (hin : ∀ i ∈ ix.take count, i < a.kdtree_get_point_count)
    (hperm : (ix.take count).Perm (ix'.take count)) :
    a.kdtree_get_limits ix count dim = a.kdtree_get_limits ix' count dim := by
  have hlen' : count ≤ ix'.length := by
    have h1 : (ix.take count).length = count := by
      simp [List.length_take]; omega
    have h2 := hperm.length_eq
    rw [h1] at h2
    have h3 : (ix'.take count).length = min count ix'.length := by
      simp [List.length_take]
    omega
  have hin' : ∀ i ∈ ix'.take count, i < a.kdtree_get_point_count := by
    intro i hi
    exact hin i (hperm.mem_iff.mpr hi)
  obtain ⟨mn, mx, heq, hmn, hmx, hbound⟩ :=
    getLimits_minmax a ix count dim hc hlen hin
  obtain ⟨mn', mx', heq', hmn', hmx', hbound'⟩ :=
    getLimits_minmax a ix' count dim hc hlen' hin'
  have hcperm : (coordsAt a ix count dim).Perm (coordsAt a ix' count dim) :=
    hperm.map _
  have hmn'' : mn' ∈ coordsAt a ix count dim := hcperm.mem_iff.mpr hmn'
  have hmx'' : mx' ∈ coordsAt a ix count dim := hcperm.mem_iff.mpr hmx'
  have hmn''' : mn ∈ coordsAt a ix' count dim := hcperm.mem_iff.mp hmn
  have hmx''' : mx ∈ coordsAt a ix' count dim := hcperm.mem_iff.mp hmx
  have e1 : mn = mn' :=
    le_antisymm (hbound mn' hmn'').1 (hbound' mn hmn''').1
  have e2 : mx = mx' :=
    le_antisymm (hbound' mx hmx''').2 (hbound mx' hmx'').2
  rw [heq, heq', e1, e2]

/-- Witness for C10 at a concrete window and a permutation of it. -/
theorem kdtree_get_limits_perm_invariant_witness :
    sampleAdaptor.kdtree_get_limits [2, 0, 1] 3 0 =
      sampleAdaptor.kdtree_get_limits [0, 1, 2] 3 0 :=
  kdtree_get_limits_perm_invariant sampleAdaptor [2, 0, 1] [0, 1, 2] 3 0
    (by decide) (by decide) (by decide) (by decide)

/-! ## Build invariants -/

/-- The leaves of a built tree hold exactly the indices the build was given,
up to order (spec section 8 build invariant). -/
lemma buildTreeFuel_perm (pc : PointCloud) (ls : Nat) :
    ∀ (fuel : Nat) (idxs : List Nat),
      (leafIdxs (buildTreeFuel pc ls fuel idxs)).Perm idxs := by
  intro fuel
  induction fuel with
  | zero => intro idxs; simp [buildTreeFuel, leafIdxs]
  | succ fuel ih =>
    intro idxs
    rw [buildTreeFuel]
    split
    · simp [leafIdxs]
    · dsimp only
      split
      · simp [leafIdxs]
      · rw [leafIdxs]
        exact ((ih _).append (ih _)).trans (List.filter_append_perm _ idxs)

/-- The built tree satisfies the geometric node invariant: left subtree
coordinates ≤ split < right subtree coordinates along the split dimension. -/
lemma buildTreeFuel_valid (pc : PointCloud) (ls : Nat) :
    ∀ (fuel : Nat) (idxs : List Nat),
      TreeValid pc (buildTreeFuel pc ls fuel idxs) := by
  intro fuel
  induction fuel with
  | zero => intro idxs; exact TreeValid.leaf idxs
  | succ fuel ih =>
    intro idxs
    rw [buildTreeFuel]
    split
    · exact TreeValid.leaf idxs
    · dsimp only
      split
      · exact TreeValid.leaf idxs
      · refine TreeValid.node _ _ _ _ ?_ ?_ (ih _) (ih _)
        · intro i hi
          have hmem := (buildTreeFuel_perm pc ls fuel _).mem_iff.mp hi
          have := List.mem_filter.mp hmem
          simpa using this.2
        · intro i hi
          have hmem := (buildTreeFuel_perm pc ls fuel _).mem_iff.mp hi
          have := List.mem_filter.mp hmem
          have h2 := this.2
          simp only [Bool.not_eq_eq_eq_not, Bool.not_true, decide_eq_false_iff_not,
            not_le] at h2
          exact h2

lemma buildTree_perm (pc : PointCloud) (ls : Nat) :
    (leafIdxs (buildTree pc ls)).Perm (List.range pc.pts.length) :=
  buildTreeFuel_perm pc ls _ _

lemma buildTree_valid (pc : PointCloud) (ls : Nat) :
    TreeValid pc (buildTree pc ls) :=
  buildTreeFuel_valid pc ls _ _

/-- The visit order of the branch-and-bound traversal is a permutation of the
indices stored in the leaves. -/
lemma visitOrder_perm (q : Point) :
    ∀ t : TreeNode, (visitOrder q t).Perm (leafIdxs t) := by
  intro t
  induction t with
  | leaf idxs => simp [visitOrder, leafIdxs]
  | node dim split l r ihl ihr =>
    rw [visitOrder, leafIdxs]
    split
    · exact ihl.append ihr
    · exact (ihr.append ihl).trans List.perm_append_comm

/-! ## Distance geometry -/

/-- Squared distances are nonnegative. -/
lemma distTo_nonneg (pc : PointCloud) (q : Point) (i : Nat) :
    0 ≤ distTo pc q i := by
  have h1 := mul_self_nonneg (q.x - (pc.pointAt i).x)
  have h2 := mul_self_nonneg (q.y - (pc.pointAt i).y)
  have h3 := mul_self_nonneg (q.z - (pc.pointAt i).z)
  simp only [distTo, Point.get_distance_to]
  omega

/-- Along any single dimension, the squared coordinate difference lower-bounds
the full squared distance. -/
lemma component_sq_le_dist (q p : Point) (dim : Nat) :
    (q.get_component dim - p.get_component dim) *
      (q.get_component dim - p.get_component dim) ≤ q.get_distance_to p := by
  have h1 := mul_self_nonneg (q.x - p.x)
  have h2 := mul_self_nonneg (q.y - p.y)
  have h3 := mul_self_nonneg (q.z - p.z)
  simp only [Point.get_component, Point.get_distance_to]
  split
  · omega
  · split
    · omega
    · omega

/-- Pruning bound, query on the left of the split: every point strictly right
of the split plane is at squared distance at least the squared split-plane
distance. -/
lemma far_bound_right (pc : PointCloud) (q : Point) (dim : Nat) (split : Int)
    (hd : q.get_component dim - split ≤ 0) (i : Nat)
    (hi : split < coordOf pc dim i) :
    (q.get_component dim - split) * (q.get_component dim - split) ≤
      distTo pc q i := by
  have hcomp := component_sq_le_dist q (pc.pointAt i) dim
  have hco : (pc.pointAt i).get_component dim = coordOf pc dim i := rfl
  have hsq : (q.get_component dim - split) * (q.get_component dim - split) ≤
      (q.get_component dim - coordOf pc dim i) *
        (q.get_component dim - coordOf pc dim i) := by
    nlinarith [hd, hi]
  calc (q.get_component dim - split) * (q.get_component dim - split)
      ≤ (q.get_component dim - coordOf pc dim i) *
          (q.get_component dim - coordOf pc dim i) := hsq
    _ ≤ q.get_distance_to (pc.pointAt i) := by rw [← hco]; exact hcomp
    _ = distTo pc q i := rfl

/-- Pruning bound, query on the right of the split: every point at or left of
the split plane is at squared distance at least the squared split-plane
distance. -/
lemma far_bound_left (pc : PointCloud) (q : Point) (dim : Nat) (split : Int)
    (hd : ¬ q.get_component dim - split ≤ 0) (i : Nat)
    (hi : coordOf pc dim i ≤ split) :
    (q.get_component dim - split) * (q.get_component dim - split) ≤
      distTo pc q i := by
  have hcomp := component_sq_le_dist q (pc.pointAt i) dim
  have hco : (pc.pointAt i).get_component dim = coordOf pc dim i := rfl
  have hsq : (q.get_component dim - split) * (q.get_component dim - split) ≤
      (q.get_component dim - coordOf pc dim i) *
        (q.get_component dim - coordOf pc dim i) := by
    push_neg at hd
    nlinarith [hd, hi]
  calc (q.get_component dim - split) * (q.get_component dim - split)
      ≤ (q.get_component dim - coordOf pc dim i) *
          (q.get_component dim - coordOf pc dim i) := hsq
    _ ≤ q.get_distance_to (pc.pointAt i) := by rw [← hco]; exact hcomp
    _ = distTo pc q i := rfl

/-! ## Result collector lemmas -/

lemma insertPair_perm (p : Nat × Int) :
    ∀ l : List (Nat × Int), (insertPair p l).Perm (p :: l) := by
  intro l
  induction l with
  | nil => simp [insertPair]
  | cons q rest ih =>
    rw [insertPair]
    split
    · exact (ih.cons q).trans (List.Perm.swap p q rest)
    · exact List.Perm.refl _

lemma insertPair_length (p : Nat × Int) (l : List (Nat × Int)) :
    (insertPair p l).length = l.length + 1 := by
  simpa using (insertPair_perm p l).length_eq

lemma insertPair_ne_nil (p : Nat × Int) (l : List (Nat × Int)) :
    insertPair p l ≠ [] := by
  cases l with
  | nil => simp [insertPair]
  | cons q rest => rw [insertPair]; split <;> simp

lemma insertPair_sorted (p : Nat × Int) :
    ∀ l : List (Nat × Int), l.Pairwise (fun a b => a.2 ≤ b.2) →
      (insertPair p l).Pairwise (fun a b => a.2 ≤ b.2) := by
  intro l
  induction l with
  | nil => intro _; simp [insertPair]
  | cons q rest ih =>
    intro hl
    rw [List.pairwise_cons] at hl
    obtain ⟨hq, hrest⟩ := hl
    rw [insertPair]
    split
    · rw [List.pairwise_cons]
      refine ⟨?_, ih hrest⟩
      intro b hb
      rcases List.mem_cons.mp ((insertPair_perm p rest).mem_iff.mp hb) with rfl | hb'
      · assumption
      · exact hq b hb'
    · rw [List.pairwise_cons]
      constructor
      · intro b hb
        rcases List.mem_cons.mp hb with rfl | hb'
        · omega
        · have := hq b hb'
          omega
      · rw [List.pairwise_cons]
        exact ⟨hq, hrest⟩

lemma insertPair_getLast? (p lst : Nat × Int) :
    ∀ l : List (Nat × Int), l.getLast? = some lst → p.2 < lst.2 →
      (insertPair p l).getLast? = some lst := by
  intro l
  induction l with
  | nil => intro h; simp at h
  | cons q rest ih =>
    intro hlast hlt
    cases rest with
    | nil =>
      simp at hlast
      subst hlast
      rw [insertPair]
      split
      · omega
      · rfl
    | cons r rest' =>
      rw [List.getLast?_cons_cons] at hlast
      rw [insertPair]
      split
      · have hih := ih hlast hlt
        obtain ⟨hd, tl, heq⟩ :=
          List.exists_cons_of_ne_nil (insertPair_ne_nil p (r :: rest'))
        rw [heq, List.getLast?_cons_cons, ← heq, hih]
      · rw [List.getLast?_cons_cons, List.getLast?_cons_cons]
        exact hlast

/-- Every element of an ascending list is at most its last element. -/
lemma sorted_le_getLast :
    ∀ (l : List (Nat × Int)), l.Pairwise (fun a b => a.2 ≤ b.2) →
      ∀ lst, l.getLast? = some lst → ∀ q ∈ l, q.2 ≤ lst.2 := by
  intro l
  induction l with
  | nil => intro _ lst h; simp at h
  | cons a rest ih =>
    intro hs lst hlast q hq
    rw [List.pairwise_cons] at hs
    obtain ⟨ha, hrest⟩ := hs
    cases rest with
    | nil =>
      simp at hlast
      subst hlast
      simp at hq
      subst hq
      exact le_refl _
    | cons b rest' =>
      rw [List.getLast?_cons_cons] at hlast
      rcases List.mem_cons.mp hq with rfl | hq'
      · have hlm : lst ∈ b :: rest' := by
          have := List.getLast?_eq_getLast (b :: rest') (by simp)
          rw [this] at hlast
          have heq : (b :: rest').getLast (by simp) = lst := by
            injection hlast
          rw [← heq]
          exact List.getLast_mem _
        exact ha lst hlm
      · exact ih hrest lst hlast q hq'

lemma addPoint_capacity (rs : KNNResultSet) (i : Nat) (d : Int) :
    (rs.addPoint i d).capacity = rs.capacity := by
  rw [KNNResultSet.addPoint]
  split
  · rfl
  · split <;> rfl

/-- A full collector ignores a candidate no closer than its worst held
distance. -/
lemma addPoint_noop (rs : KNNResultSet) (i : Nat) (d : Int)
    (hfull : rs.capacity ≤ rs.items.length) (hd : rs.worstDist ≤ d) :
    rs.addPoint i d = rs := by
  rw [KNNResultSet.addPoint]
  split
  · omega
  · split
    · omega
    · rfl

lemma searchLeaf_nil (pc : PointCloud) (q : Point) (rs : KNNResultSet) :
    searchLeaf pc q [] rs = rs := rfl

lemma searchLeaf_cons (pc : PointCloud) (q : Point) (i : Nat) (is : List Nat)
    (rs : KNNResultSet) :
    searchLeaf pc q (i :: is) rs =
      searchLeaf pc q is (rs.addPoint i (distTo pc q i)) := rfl

lemma searchLeaf_append (pc : PointCloud) (q : Point) (is js : List Nat)
    (rs : KNNResultSet) :
    searchLeaf pc q (is ++ js) rs = searchLeaf pc q js (searchLeaf pc q is rs) :=
  List.foldl_append _ _ is js

/-- A full collector is unchanged by a whole batch of candidates no closer
than its worst held distance. -/
lemma searchLeaf_noop (pc : PointCloud) (q : Point) :
    ∀ (is : List Nat) (rs : KNNResultSet),
      rs.capacity ≤ rs.items.length →
      (∀ i ∈ is, rs.worstDist ≤ distTo pc q i) →
      searchLeaf pc q is rs = rs := by
  intro is
  induction is with
  | nil => intro rs _ _; rfl
  | cons i is ih =>
    intro rs hfull hd
    rw [searchLeaf_cons, addPoint_noop rs i _ hfull (hd i (List.mem_cons_self i is))]
    exact ih rs hfull (fun j hj => hd j (List.mem_cons_of_mem i hj))

/-! ## Collector abstraction invariant -/

lemma RSinv_perm (cap : Nat) (D D' I : List (Nat × Int)) (hDD : D.Perm D')
    (h : RSinv cap D I) : RSinv cap D' I := by
  obtain ⟨hs, hlen, rest, hperm, hge⟩ := h
  exact ⟨hs, by rw [← hDD.length_eq]; exact hlen, rest, hDD.symm.trans hperm, hge⟩

/-- One candidate step preserves the collector abstraction: feeding `(i, d)`
into a collector abstracting the seen list `D` yields a collector abstracting
`(i, d) :: D`. -/
lemma RSinv_addPoint (cap : Nat) (D I : List (Nat × Int)) (i : Nat) (d : Int)
    (hd : 0 ≤ d) (hinv : RSinv cap D I) :
    RSinv cap ((i, d) :: D) ((KNNResultSet.mk cap I).addPoint i d).items := by
  obtain ⟨hs, hlen, rest, hperm, hge⟩ := hinv
  have hDlen : D.length = I.length + rest.length := by
    rw [hperm.length_eq, List.length_append]
  rw [KNNResultSet.addPoint]
  split
  case isTrue hlt =>
    dsimp only at hlt ⊢
    have hrest : rest = [] := by
      have : rest.length = 0 := by omega
      exact List.eq_nil_of_length_eq_zero this
    subst hrest
    refine ⟨insertPair_sorted _ _ hs, ?_, [], ?_, by simp⟩
    · rw [insertPair_length]
      simp only [List.length_cons]
      omega
    · rw [List.append_nil]
      have hDI : D.Perm I := by simpa using hperm
      exact (hDI.cons (i, d)).trans (insertPair_perm (i, d) I).symm
  case isFalse hfull =>
    dsimp only at hfull
    have hIcap : I.length = cap := by omega
    split
    case isTrue hdlt =>
      dsimp only at hdlt ⊢
      rcases Nat.eq_zero_or_pos cap with hcap0 | hcappos
      · exfalso
        have hI : I = [] := List.eq_nil_of_length_eq_zero (by omega)
        rw [hI] at hdlt
        simp [KNNResultSet.worstDist] at hdlt
        omega
      have hIne : I ≠ [] := by
        intro h
        rw [h] at hIcap
        simp at hIcap
        omega
      have hlast : I.getLast? = some (I.getLast hIne) := List.getLast?_eq_getLast I hIne
      have hworst : (KNNResultSet.mk cap I).worstDist = (I.getLast hIne).2 := by
        simp [KNNResultSet.worstDist, hlast]
      rw [hworst] at hdlt
      have hins_last : (insertPair (i, d) I).getLast? = some (I.getLast hIne) :=
        insertPair_getLast? (i, d) _ I hlast hdlt
      have hins_ne : insertPair (i, d) I ≠ [] := insertPair_ne_nil (i, d) I
      have hlast_eq : (insertPair (i, d) I).getLast hins_ne = I.getLast hIne := by
        have h1 := List.getLast?_eq_getLast (insertPair (i, d) I) hins_ne
        rw [h1] at hins_last
        injection hins_last
      have hins_eq :
          insertPair (i, d) I = (insertPair (i, d) I).dropLast ++ [I.getLast hIne] := by
        conv_lhs => rw [← List.dropLast_append_getLast hins_ne]
        rw [hlast_eq]
      refine ⟨(insertPair_sorted _ _ hs).sublist (List.dropLast_sublist _), ?_,
        I.getLast hIne :: rest, ?_, ?_⟩
      · rw [List.length_dropLast, insertPair_length]
        simp only [List.length_cons]
        omega
      · have p1 : ((i, d) :: D).Perm ((i, d) :: (I ++ rest)) := hperm.cons _
        have p2 : (((i, d) :: I) ++ rest).Perm (insertPair (i, d) I ++ rest) :=
          (insertPair_perm (i, d) I).symm.append_right rest
        have p3 : ((i, d) :: D).Perm (insertPair (i, d) I ++ rest) := p1.trans p2
        rw [hins_eq, List.append_assoc] at p3
        exact p3
      · intro p hp qq hqq
        have hqmem : qq ∈ insertPair (i, d) I := (List.dropLast_sublist _).subset hqq
        have hq2 : qq = (i, d) ∨ qq ∈ I :=
          List.mem_cons.mp ((insertPair_perm (i, d) I).mem_iff.mp hqmem)
        rcases List.mem_cons.mp hp with rfl | hp'
        · rcases hq2 with rfl | hqI
          · exact le_of_lt hdlt
          · exact sorted_le_getLast I hs _ hlast qq hqI
        · rcases hq2 with rfl | hqI
          · have hlstI : (I.getLast hIne) ∈ I := List.getLast_mem hIne
            have h1 := hge p hp' _ hlstI
            omega
          · exact hge p hp' qq hqI
    case isFalse hdge =>
      dsimp only at hdge ⊢
      refine ⟨hs, ?_, (i, d) :: rest, ?_, ?_⟩
      · simp only [List.length_cons]
        omega
      · exact (hperm.cons _).trans List.perm_middle.symm
      · intro p hp qq hqq
        rcases List.mem_cons.mp hp with rfl | hp'
        · have hIne : I ≠ [] := List.ne_nil_of_mem hqq
          have hlast : I.getLast? = some (I.getLast hIne) :=
            List.getLast?_eq_getLast I hIne
          have hworst : (KNNResultSet.mk cap I).worstDist = (I.getLast hIne).2 := by
            simp [KNNResultSet.worstDist, hlast]
          rw [hworst] at hdge
          have h1 := sorted_le_getLast I hs _ hlast qq hqq
          omega
        · exact hge p hp' qq hqq

/-- Feeding a whole batch of point indices into the collector extends the
abstracted seen list by the corresponding candidate pairs. -/
lemma RSinv_searchLeaf (pc : PointCloud) (q : Point) (cap : Nat) :
    ∀ (is : List Nat) (D I : List (Nat × Int)), RSinv cap D I →
      RSinv cap (toPairs pc q is ++ D)
        ((searchLeaf pc q is (KNNResultSet.mk cap I)).items) := by
  intro is
  induction is with
  | nil => intro D I h; simpa [toPairs, searchLeaf_nil] using h
  | cons i is ih =>
    intro D I h
    rw [searchLeaf_cons]
    have hstep := RSinv_addPoint cap D I i (distTo pc q i) (distTo_nonneg pc q i) h
    have hcap : ((KNNResultSet.mk cap I).addPoint i (distTo pc q i)).capacity = cap :=
      addPoint_capacity _ _ _
    have heta : (KNNResultSet.mk cap I).addPoint i (distTo pc q i) =
        KNNResultSet.mk cap (((KNNResultSet.mk cap I).addPoint i (distTo pc q i)).items) := by
      cases hps : (KNNResultSet.mk cap I).addPoint i (distTo pc q i) with
      | mk c it =>
        rw [hps] at hcap
        dsimp only at hcap ⊢
        rw [hcap]
    rw [heta]
    have hfinal := ih ((i, distTo pc q i) :: D) _ hstep
    refine RSinv_perm cap _ _ _ ?_ hfinal
    simp only [toPairs, List.map_cons]
    exact List.perm_middle

/-! ## Linearization of the branch-and-bound traversal -/

/-- On a geometrically valid tree, the branch-and-bound search computes the
same collector as feeding every point in visit order: a pruned far subtree
would only have offered candidates at least as far as the full collector's
worst distance, each of which the collector ignores. -/
lemma searchTree_eq_searchLeaf (pc : PointCloud) (q : Point) :
    ∀ (t : TreeNode) (rs : KNNResultSet), TreeValid pc t →
      searchTree pc q t rs = searchLeaf pc q (visitOrder q t) rs := by
  intro t
  induction t with
  | leaf idxs => intro rs _; rfl
  | node dim split l r ihl ihr =>
    intro rs hv
    cases hv with
    | node _ _ _ _ hl hr vl vr =>
      rw [searchTree, visitOrder]
      dsimp only
      split
      case isTrue hd =>
        rw [searchLeaf_append, ← ihl rs vl]
        split
        case isTrue hcond => exact ihr _ vr
        case isFalse hcond =>
          push_neg at hcond
          obtain ⟨hfull, hworst⟩ := hcond
          rw [searchLeaf_noop pc q (visitOrder q r) _ (by omega) ?_]
          intro i hi
          have hir : i ∈ leafIdxs r := (visitOrder_perm q r).subset hi
          have hbound := far_bound_right pc q dim split hd i (hr i hir)
          omega
      case isFalse hd =>
        rw [searchLeaf_append, ← ihr rs vr]
        split
        case isTrue hcond => exact ihl _ vl
        case isFalse hcond =>
          push_neg at hcond
          obtain ⟨hfull, hworst⟩ := hcond
          rw [searchLeaf_noop pc q (visitOrder q l) _ (by omega) ?_]
          intro i hi
          have hil : i ∈ leafIdxs l := (visitOrder_perm q l).subset hi
          have hbound := far_bound_left pc q dim split hd i (hl i hil)
          omega

/-! ## Insertion sort of the reference scan -/

lemma insertAsc_perm (d : Int) :
    ∀ l : List Int, (insertAsc d l).Perm (d :: l) := by
  intro l
  induction l with
  | nil => simp [insertAsc]
  | cons v rest ih =>
    rw [insertAsc]
    split
    · exact (ih.cons v).trans (List.Perm.swap d v rest)
    · exact List.Perm.refl _

lemma insertAsc_sorted (d : Int) :
    ∀ l : List Int, l.Pairwise (· ≤ ·) → (insertAsc d l).Pairwise (· ≤ ·) := by
  intro l
  induction l with
  | nil => intro _; simp [insertAsc]
  | cons v rest ih =>
    intro hl
    rw [List.pairwise_cons] at hl
    obtain ⟨hv, hrest⟩ := hl
    rw [insertAsc]
    split
    · rw [List.pairwise_cons]
      refine ⟨?_, ih hrest⟩
      intro b hb
      rcases List.mem_cons.mp ((insertAsc_perm d rest).mem_iff.mp hb) with rfl | hb'
      · assumption
      · exact hv b hb'
    · rw [List.pairwise_cons]
      constructor
      · intro b hb
        rcases List.mem_cons.mp hb with rfl | hb'
        · omega
        · have := hv b hb'
          omega
      · rw [List.pairwise_cons]
        exact ⟨hv, hrest⟩

lemma sortAsc_perm : ∀ l : List Int, (sortAsc l).Perm l := by
  intro l
  induction l with
  | nil => simp [sortAsc]
  | cons v rest ih =>
    have h1 : sortAsc (v :: rest) = insertAsc v (sortAsc rest) := rfl
    rw [h1]
    exact (insertAsc_perm v (sortAsc rest)).trans (ih.cons v)

lemma sortAsc_sorted : ∀ l : List Int, (sortAsc l).Pairwise (· ≤ ·) := by
  intro l
  induction l with
  | nil => simp [sortAsc]
  | cons v rest ih => exact insertAsc_sorted v (sortAsc rest) ih

/-- Sorting ascending is invariant under permutation of the input. -/
lemma sortAsc_congr (l l' : List Int) (h : l.Perm l') : sortAsc l = sortAsc l' :=
  List.eq_of_perm_of_sorted ((sortAsc_perm l).trans (h.trans (sortAsc_perm l').symm))
    (sortAsc_sorted l) (sortAsc_sorted l')

/-- Final reading of the collector abstraction: the held distances are
exactly the first `cap` of the ascending sort of all seen distances. -/
lemma RSinv_dists (cap : Nat) (D I : List (Nat × Int)) (h : RSinv cap D I) :
    I.map Prod.snd = (sortAsc (D.map Prod.snd)).take cap := by
  obtain ⟨hs, hlen, rest, hperm, hge⟩ := h
  have hIs : (I.map Prod.snd).Pairwise (· ≤ ·) := List.pairwise_map.mpr hs
  have hsorted : ((I.map Prod.snd) ++ sortAsc (rest.map Prod.snd)).Pairwise (· ≤ ·) := by
    rw [List.pairwise_append]
    refine ⟨hIs, sortAsc_sorted _, ?_⟩
    intro a ha b hb
    obtain ⟨qa, hqa, rfl⟩ := List.mem_map.mp ha
    have hb' : b ∈ rest.map Prod.snd := (sortAsc_perm _).subset hb
    obtain ⟨pb, hpb, rfl⟩ := List.mem_map.mp hb'
    exact hge pb hpb qa hqa
  have hperm2 : ((I.map Prod.snd) ++ sortAsc (rest.map Prod.snd)).Perm
      (D.map Prod.snd) := by
    have p1 : ((I.map Prod.snd) ++ sortAsc (rest.map Prod.snd)).Perm
        ((I.map Prod.snd) ++ rest.map Prod.snd) :=
      (sortAsc_perm (rest.map Prod.snd)).append_left (I.map Prod.snd)
    have p2 : (I.map Prod.snd) ++ rest.map Prod.snd = (I ++ rest).map Prod.snd :=
      (List.map_append Prod.snd I rest).symm
    rw [p2] at p1
    exact p1.trans ((hperm.map Prod.snd).symm)
  have hmain : sortAsc (D.map Prod.snd) =
      (I.map Prod.snd) ++ sortAsc (rest.map Prod.snd) :=
    List.eq_of_perm_of_sorted ((sortAsc_perm _).trans hperm2.symm)
      (sortAsc_sorted _) hsorted
  rw [hmain]
  have hDlen : D.length = I.length + rest.length := by
    rw [hperm.length_eq, List.length_append]
  rcases le_or_lt cap D.length with hc | hc
  · have hIlen : (I.map Prod.snd).length = cap := by
      rw [List.length_map]
      omega
    rw [← hIlen, List.take_left]
  · have hrest : rest = [] := List.eq_nil_of_length_eq_zero (by omega)
    subst hrest
    simp only [List.map_nil]
    have h2 : sortAsc ([] : List Int) = [] := rfl
    rw [h2, List.append_nil]
    exact (List.take_of_length_le (by rw [List.length_map]; omega)).symm

/-! ## Full k-NN characterization -/

/-- Complete behavioral characterization of `findKNearest`, for every point
set, leaf size, query and k: it returns min(k, N) pairs; their distances are
exactly the first k of the brute-force ascending distance scan; the returned
indices are distinct, in range, and carried with their true squared
distances; and every point not returned is at least as far as every returned
one. -/
lemma findKNearest_spec (pc : PointCloud) (ls : Nat) (q : Point) (k : Nat) :
    (findKNearest pc ls q k).length = min k pc.pts.length ∧
    (findKNearest pc ls q k).map Prod.snd = (bruteForceDists pc q).take k ∧
    ((findKNearest pc ls q k).map Prod.fst).Nodup ∧
    (∀ p ∈ findKNearest pc ls q k, p.1 < pc.pts.length ∧ p.2 = distTo pc q p.1) ∧
    (∀ j, j < pc.pts.length → j ∉ (findKNearest pc ls q k).map Prod.fst →
      ∀ p ∈ findKNearest pc ls q k, p.2 ≤ distTo pc q j) := by
  have hvalid : TreeValid pc (buildTree pc ls) := buildTree_valid pc ls
  have hsearch : findKNearest pc ls q k =
      (searchLeaf pc q (visitOrder q (buildTree pc ls)) (KNNResultSet.mk k [])).items := by
    simp only [findKNearest]
    rw [searchTree_eq_searchLeaf pc q _ _ hvalid]
  have h0 : RSinv k [] [] := ⟨List.Pairwise.nil, by simp, [], by simp, by simp⟩
  have hinv := RSinv_searchLeaf pc q k (visitOrder q (buildTree pc ls)) [] [] h0
  rw [List.append_nil] at hinv
  have hdists := RSinv_dists k _ _ hinv
  have hD : (toPairs pc q (visitOrder q (buildTree pc ls))).Perm
      (toPairs pc q (List.range pc.pts.length)) :=
    ((visitOrder_perm q _).trans (buildTree_perm pc ls)).map _
  have hDlen : (toPairs pc q (visitOrder q (buildTree pc ls))).length =
      pc.pts.length := by
    rw [hD.length_eq]
    simp [toPairs]
  obtain ⟨hs, hlen, rest, hperm, hge⟩ := hinv
  have hsnd : (toPairs pc q (visitOrder q (buildTree pc ls))).map Prod.snd |>.Perm
      ((List.range pc.pts.length).map (distTo pc q)) := by
    have h1 := hD.map Prod.snd
    have h2 : (toPairs pc q (List.range pc.pts.length)).map Prod.snd =
        (List.range pc.pts.length).map (distTo pc q) := by
      simp [toPairs, List.map_map]
    rw [h2] at h1
    exact h1
  have hbrute : sortAsc ((toPairs pc q (visitOrder q (buildTree pc ls))).map Prod.snd) =
      bruteForceDists pc q := by
    rw [bruteForceDists]
    exact sortAsc_congr _ _ hsnd
  have hfst : ((toPairs pc q (visitOrder q (buildTree pc ls))).map Prod.fst).Perm
      (List.range pc.pts.length) := by
    have h1 := hD.map Prod.fst
    have h2 : (toPairs pc q (List.range pc.pts.length)).map Prod.fst =
        List.range pc.pts.length := by
      simp only [toPairs, List.map_map]
      exact List.map_id _
    rw [h2] at h1
    exact h1
  rw [hsearch]
  refine ⟨?_, ?_, ?_, ?_, ?_⟩
  · rw [hlen, hDlen]
  · rw [hdists, hbrute]
  · have hDnodup : ((toPairs pc q (visitOrder q (buildTree pc ls))).map Prod.fst).Nodup :=
      hfst.symm.nodup (List.nodup_range _)
    have h1 : (((searchLeaf pc q (visitOrder q (buildTree pc ls))
        (KNNResultSet.mk k [])).items ++ rest).map Prod.fst).Nodup :=
      (hperm.map Prod.fst).nodup hDnodup
    rw [List.map_append] at h1
    exact h1.of_append_left
  · intro p hp
    have hpD : p ∈ toPairs pc q (visitOrder q (buildTree pc ls)) :=
      hperm.mem_iff.mpr (List.mem_append_left rest hp)
    have hpR : p ∈ toPairs pc q (List.range pc.pts.length) := hD.subset hpD
    obtain ⟨i, hi, rfl⟩ := List.mem_map.mp hpR
    exact ⟨List.mem_range.mp hi, rfl⟩
  · intro j hj hnotin p hp
    have hjD : (j, distTo pc q j) ∈ toPairs pc q (visitOrder q (buildTree pc ls)) := by
      refine hD.mem_iff.mpr ?_
      exact List.mem_map.mpr ⟨j, List.mem_range.mpr hj, rfl⟩
    have hjIR := hperm.mem_iff.mp hjD
    rcases List.mem_append.mp hjIR with hjI | hjrest
    · exact absurd (List.mem_map.mpr ⟨(j, distTo pc q j), hjI, rfl⟩) hnotin
    · exact hge (j, distTo pc q j) hjrest p hp

/-! ## Degenerate query parameters -/

lemma radiusLeaf_cons (pc : PointCloud) (q : Point) (rad : Int) (i : Nat)
    (is : List Nat) (acc : List (Nat × Int)) :
    radiusLeaf pc q rad (i :: is) acc =
      radiusLeaf pc q rad is
        (if distTo pc q i ≤ rad then acc ++ [(i, distTo pc q i)] else acc) := rfl

lemma radiusLeaf_neg (pc : PointCloud) (q : Point) (rad : Int) (hrad : rad < 0) :
    ∀ (is : List Nat) (acc : List (Nat × Int)), radiusLeaf pc q rad is acc = acc := by
  intro is
  induction is with
  | nil => intro acc; rfl
  | cons i is ih =>
    intro acc
    rw [radiusLeaf_cons]
    have hd := distTo_nonneg pc q i
    rw [if_neg (by omega)]
    exact ih acc

/-- With a negative squared radius nothing is ever admitted: the radius
traversal returns its accumulator unchanged. -/
lemma radiusTree_neg (pc : PointCloud) (q : Point) (rad : Int) (hrad : rad < 0) :
    ∀ (t : TreeNode) (acc : List (Nat × Int)), radiusTree pc q rad t acc = acc := by
  intro t
  induction t with
  | leaf idxs => intro acc; exact radiusLeaf_neg pc q rad hrad idxs acc
  | node dim split l r ihl ihr =>
    intro acc
    rw [radiusTree]
    dsimp only
    split
    · split
      · rw [ihl, ihr]
      · exact ihl acc
    · split
      · rw [ihr, ihl]
      · exact ihr acc

/-! ## Search claims -/

/-- C2: for any point set, any leaf size, any query, and any k ≤ N,
`findKNearest` returns exactly min(k, N) points, and they are the true k
closest points to the query as determined by a brute-force linear scan: the
returned distances are precisely the first k of the ascending scan of all N
distances, the returned indices are distinct valid indices carrying their
true squared distances, and every point left out is at least as far as every
point returned. -/
theorem findKNearest_completeness (pc : PointCloud) (ls : Nat) (q : Point)
    (k : Nat) (hk : k ≤ pc.pts.length) :
    (findKNearest pc ls q k).length = min k pc.pts.length ∧
    (findKNearest pc ls q k).map Prod.snd = (bruteForceDists pc q).take k ∧
    ((findKNearest pc ls q k).map Prod.fst).Nodup ∧
    (∀ p ∈ findKNearest pc ls q k, p.1 < pc.pts.length ∧ p.2 = distTo pc q p.1) ∧
    (∀ j, j < pc.pts.length → j ∉ (findKNearest pc ls q k).map Prod.fst →
      ∀ p ∈ findKNearest pc ls q k, p.2 ≤ distTo pc q j) := by
  have _ := hk
  exact findKNearest_spec pc ls q k

/-- Witness for C2 on a concrete 3-point cloud with k = 2. -/
theorem findKNearest_completeness_witness :
    (findKNearest samplePC 10 ⟨1, 1, 1⟩ 2).length = min 2 samplePC.pts.length ∧
    (findKNearest samplePC 10 ⟨1, 1, 1⟩ 2).map Prod.snd =
      (bruteForceDists samplePC ⟨1, 1, 1⟩).take 2 ∧
    ((findKNearest samplePC 10 ⟨1, 1, 1⟩ 2).map Prod.fst).Nodup ∧
    (∀ p ∈ findKNearest samplePC 10 ⟨1, 1, 1⟩ 2,
      p.1 < samplePC.pts.length ∧ p.2 = distTo samplePC ⟨1, 1, 1⟩ p.1) ∧
    (∀ j, j < samplePC.pts.length →
      j ∉ (findKNearest samplePC 10 ⟨1, 1, 1⟩ 2).map Prod.fst →
      ∀ p ∈ findKNearest samplePC 10 ⟨1, 1, 1⟩ 2,
        p.2 ≤ distTo samplePC ⟨1, 1, 1⟩ j) :=
  findKNearest_completeness samplePC 10 ⟨1, 1, 1⟩ 2 (by decide)

/-- C7: for every query point, `findKNearest` with k = 0 and `findInRadius`
with a negative radius each return an empty result rather than failing. -/
theorem degenerate_query_empty (pc : PointCloud) (ls : Nat) (q : Point)
    (rad : Int) (hrad : rad < 0) :
    findKNearest pc ls q 0 = [] ∧ findInRadius pc ls q rad = [] := by
  constructor
  · have h := (findKNearest_spec pc ls q 0).1
    simp only [Nat.zero_min] at h
    exact List.eq_nil_of_length_eq_zero h
  · rw [findInRadius]
    exact radiusTree_neg pc q rad hrad _ []

/-- Witness for C7 at a concrete cloud, query and radius. -/
theorem degenerate_query_empty_witness :
    findKNearest samplePC 10 ⟨1, 2, 3⟩ 0 = [] ∧
    findInRadius samplePC 10 ⟨1, 2, 3⟩ (-1) = [] :=
  degenerate_query_empty samplePC 10 ⟨1, 2, 3⟩ (-1) (by decide)

end Nanoflann
